import Mathlib

/-!
Shallow embedding of the dir-obj library (src/src/lib.rs): an in-memory
directory tree (Dir / File / Entry) with load-from-disk and dump-to-disk.

The host filesystem is the external collaborator.  Following the spec's
external-interface contract it is modelled as an inductive tree FsNode:
a path either holds a regular file (with its bytes), a directory (with an
enumerable list of named children), or some other kind of object
(symlink, device, socket, ...).  The enumeration order of a directory's
children is the order of the list.  The filesystem primitives consumed by
the code are: open-for-read / read-to-end (File::load), create-or-truncate
-for-write / write-all (File::dump), enumerate-children (fs::read_dir in
Dir::load), and create-directory, which fails if the path is already
occupied (fs::create_dir in Dir::dump).

Rust's HashMap of OsString keys is modelled as an association list whose
insert replaces the binding of an existing key and otherwise appends;
names (OsString) are opaque identifiers, modelled as Nat.  Byte buffers
(Vec of u8) are modelled as List Nat.
-/

/-- Opaque filesystem name, the key type of a Dir's map (OsString in the
source). -/
abbrev OsString := Nat

/-- Representation of a file (struct File, src/src/lib.rs lines 38-41):
owns one byte sequence. -/
structure File where
  bytes : List Nat

mutual
/-- Possible entries in a directory (enum Entry, lines 44-48). -/
inductive Entry where
  | file (f : File)
  | dir (d : Dir)

/-- Representation of a directory (struct Dir, lines 32-35): a mapping
from child name to Entry, modelled as an association list. -/
inductive Dir where
  | mk (items : List (OsString × Entry))
end

/-- Projection of the items field of a Dir. -/
def Dir.items : Dir → List (OsString × Entry)
  | .mk l => l

/-- The filesystem object found at one path: a regular file, a directory
with named children (in enumeration order), or an unsupported kind of
object (symlink, device, socket, ...). -/
inductive FsNode where
  | file (bytes : List Nat)
  | dir (children : List (OsString × FsNode))
  | other

/-- The io::ErrorKind values the library produces or meets. -/
inductive IoErrorKind where
  | notFound
  | alreadyExists
  | notADirectory
  | other

/-- HashMap::contains_key on the association-list model. -/
def containsKey {α : Type} : List (OsString × α) → OsString → Bool
  | [], _ => false
  | (k, _) :: rest, n => if k = n then true else containsKey rest n

/-- HashMap::get on the association-list model. -/
def lookupA {α : Type} : List (OsString × α) → OsString → Option α
  | [], _ => none
  | (k, v) :: rest, n => if k = n then some v else lookupA rest n

/-- HashMap::insert on the association-list model: replace the binding of
an existing key, otherwise append a new one. -/
def insertA {α : Type} : List (OsString × α) → OsString → α → List (OsString × α)
  | [], n, v => [(n, v)]
  | (k, x) :: rest, n, v => if k = n then (n, v) :: rest else (k, x) :: insertA rest n v

/-- Writing an optional object to a named slot of a directory's children
(used to track what dumping has put on disk so far). -/
def updateA (l : List (OsString × FsNode)) (n : OsString) : Option FsNode → List (OsString × FsNode)
  | none => l
  | some v => insertA l n v

/-- File::new (lines 61-65). -/
def File.new (bytes : List Nat) : File :=
  File.mk bytes

/-- File::load (lines 67-73), given the filesystem object at the path:
open-for-read plus read-to-end succeeds on a regular file and yields its
bytes; on any other object it is an I/O error. -/
def File.load : FsNode → Except IoErrorKind File
  | .file b => .ok (File.new b)
  | _ => .error .other

/-- File::dump (lines 79-82), given the object currently at the path: the
create-or-truncate-for-write primitive (fs::File::create) replaces
whatever is there by a file holding the File's bytes, and write-all
writes them.  It returns the result together with the object now at the
path. -/
def File.dump (f : File) (_existing : Option FsNode) : Except IoErrorKind Unit × Option FsNode :=
  (.ok (), some (.file f.bytes))

/-- Dir::new (lines 87-91). -/
def Dir.new : Dir :=
  Dir.mk []

mutual
/-- Dir::load (lines 93-111), given the filesystem object at the path:
fs::read_dir fails unless the object is a directory; then the children
are folded, in enumeration order, into a Dir starting from Dir::new. -/
def Dir.load : FsNode → Except IoErrorKind Dir
  | .dir children => Dir.loadInto Dir.new children
  | _ => .error .notADirectory

/-- The for-loop of Dir::load (lines 97-109): for each enumerated child,
a directory is loaded recursively and inserted, a regular file is loaded
with File::load and inserted, and any other kind of object aborts with an
ErrorKind::Other error. -/
def Dir.loadInto (dir : Dir) : List (OsString × FsNode) → Except IoErrorKind Dir
  | [] => .ok dir
  | (name, child) :: rest =>
    match child with
    | .dir _ =>
      match Dir.load child with
      | .ok subdir => Dir.loadInto (Dir.mk (insertA dir.items name (.dir subdir))) rest
      | .error e => .error e
    | .file _ =>
      match File.load child with
      | .ok file => Dir.loadInto (Dir.mk (insertA dir.items name (.file file))) rest
      | .error e => .error e
    | .other => .error .other
end

mutual
/-- Dir::dump (lines 113-120), given the object currently at the target
path: fs::create_dir fails with AlreadyExists if the path is occupied,
leaving the occupant in place; otherwise the fresh directory is created
and every owned entry is dumped, in iteration order, into the path joined
with its name.  Returns the result together with the object now at the
path. -/
def Dir.dump : Dir → Option FsNode → Except IoErrorKind Unit × Option FsNode
  | _, some obj => (.error .alreadyExists, some obj)
  | .mk items, none =>
    match Dir.dumpItems [] items with
    | (res, children) => (res, some (.dir children))

/-- The for-loop of Dir::dump (lines 115-118): each entry is dumped at
the child path (made tracks what the loop has written into the fresh
directory so far); the first error aborts the loop, leaving the children
written before it in place. -/
def Dir.dumpItems (made : List (OsString × FsNode)) : List (OsString × Entry) → Except IoErrorKind Unit × List (OsString × FsNode)
  | [] => (.ok (), made)
  | (name, entry) :: rest =>
    match Entry.dump entry (lookupA made name) with
    | (.ok _, obj) => Dir.dumpItems (updateA made name obj) rest
    | (.error e, obj) => (.error e, updateA made name obj)

/-- Entry::dump (lines 50-57): dispatches to File::dump or Dir::dump
according to the variant. -/
def Entry.dump : Entry → Option FsNode → Except IoErrorKind Unit × Option FsNode
  | .file f, existing => File.dump f existing
  | .dir d, existing => Dir.dump d existing
end

/-- Dir::add_file (lines 122-128): fails with AlreadyExists when the name
is occupied, leaving the Dir unchanged; otherwise inserts the file.
Returns the result together with the Dir afterwards (the mutated self). -/
def Dir.add_file (d : Dir) (name : OsString) (file : File) : Except IoErrorKind Unit × Dir :=
  if containsKey d.items name then (.error .alreadyExists, d)
  else (.ok (), Dir.mk (insertA d.items name (.file file)))

/-- Dir::add_dir (lines 130-136): same contract as add_file, for a Dir
value. -/
def Dir.add_dir (d : Dir) (name : OsString) (dir : Dir) : Except IoErrorKind Unit × Dir :=
  if containsKey d.items name then (.error .alreadyExists, d)
  else (.ok (), Dir.mk (insertA d.items name (.dir dir)))

/-- Dir::entries (lines 138-140): the sequence of (name, Entry) pairs. -/
def Dir.entries (d : Dir) : List (OsString × Entry) :=
  d.items

/-- No two pairs of the association list bind the same key. -/
def noDupKeys {α : Type} : List (OsString × α) → Bool
  | [] => true
  | (k, _) :: rest => !(containsKey rest k) && noDupKeys rest

mutual
/-- Well-formedness of an Entry: every Dir below it has no duplicate
names.  Every value representable by Rust's HashMap satisfies this. -/
def Entry.wfB : Entry → Bool
  | .file _ => true
  | .dir d => Dir.wfB d

/-- Well-formedness of a Dir: its own names are distinct and every child
entry is well-formed. -/
def Dir.wfB : Dir → Bool
  | .mk items => noDupKeys items && itemsWf items

/-- Well-formedness of every entry of an item list. -/
def itemsWf : List (OsString × Entry) → Bool
  | [] => true
  | (_, e) :: rest => Entry.wfB e && itemsWf rest
end

mutual
/-- A filesystem node is supported when no directory below it has a child
that is neither a regular file nor a directory. -/
def FsNode.supported : FsNode → Bool
  | .file _ => true
  | .dir children => supportedChildren children
  | .other => false

/-- All children of an enumeration are supported. -/
def supportedChildren : List (OsString × FsNode) → Bool
  | [] => true
  | (_, c) :: rest => FsNode.supported c && supportedChildren rest
end

mutual
/-- Structural equality of entries, the derived PartialEq of the source:
files compare by bytes, directories as maps. -/
def Entry.eqv : Entry → Entry → Bool
  | .file f1, .file f2 => f1.bytes == f2.bytes
  | .dir d1, .dir d2 => Dir.eqv d1 d2
  | _, _ => false

/-- Structural equality of directories, the derived PartialEq of the
source on HashMap: same number of bindings, and every binding of the
first has a structurally equal binding in the second. -/
def Dir.eqv : Dir → Dir → Bool
  | .mk l1, .mk l2 => (l1.length == l2.length) && itemsIncl l1 l2

/-- Every binding of the first list has a structurally equal binding in
the second. -/
def itemsIncl : List (OsString × Entry) → List (OsString × Entry) → Bool
  | [], _ => true
  | (n, e) :: rest, l2 => entryLookupEqv e l2 n && itemsIncl rest l2

/-- Looks the name up in the list and compares the entry found with the
given one. -/
def entryLookupEqv (e : Entry) : List (OsString × Entry) → OsString → Bool
  | [], _ => false
  | (k, e2) :: rest, n => if k = n then Entry.eqv e e2 else entryLookupEqv e rest n
end

/-- One call of the mutation API. -/
inductive AddOp where
  | addFile (name : OsString) (file : File)
  | addDir (name : OsString) (dir : Dir)

/-- The name an operation inserts at. -/
def AddOp.name : AddOp → OsString
  | .addFile n _ => n
  | .addDir n _ => n

/-- The entry an operation inserts. -/
def AddOp.entry : AddOp → Entry
  | .addFile _ f => .file f
  | .addDir _ d => .dir d

/-- Performing a sequence of add_file / add_dir calls in order, failing
fast on the first error. -/
def Dir.applyOps (d : Dir) : List AddOp → Except IoErrorKind Dir
  | [] => .ok d
  | .addFile n f :: rest =>
    match Dir.add_file d n f with
    | (.ok _, d2) => Dir.applyOps d2 rest
    | (.error _, _) => .error .alreadyExists
  | .addDir n sub :: rest =>
    match Dir.add_dir d n sub with
    | (.ok _, d2) => Dir.applyOps d2 rest
    | (.error _, _) => .error .alreadyExists

/-- The trees built purely via add_file / add_dir from Dir::new. -/
inductive Built : Dir → Prop where
  | new : Built Dir.new
  | add_file (d : Dir) (n : OsString) (f : File) (d2 : Dir) :
      Built d → Dir.add_file d n f = (.ok (), d2) → Built d2
  | add_dir (d : Dir) (n : OsString) (sub : Dir) (d2 : Dir) :
      Built d → Built sub → Dir.add_dir d n sub = (.ok (), d2) → Built d2

/-- The Dir values reachable through new, load, add_file and add_dir. -/
inductive Reachable : Dir → Prop where
  | new : Reachable Dir.new
  | load (fs : FsNode) (d : Dir) : Dir.load fs = .ok d → Reachable d
  | add_file (d : Dir) (n : OsString) (f : File) (d2 : Dir) :
      Reachable d → Dir.add_file d n f = (.ok (), d2) → Reachable d2
  | add_dir (d : Dir) (n : OsString) (sub : Dir) (d2 : Dir) :
      Reachable d → Reachable sub → Dir.add_dir d n sub = (.ok (), d2) → Reachable d2

mutual
/-- The directory tree that dumping an entry at a fresh path puts on
disk. -/
def Entry.toFs : Entry → FsNode
  | .file f => .file f.bytes
  | .dir (.mk items) => .dir (itemsToFs items)

/-- The on-disk children produced by dumping an item list into a fresh
directory. -/
def itemsToFs : List (OsString × Entry) → List (OsString × FsNode)
  | [] => []
  | (n, e) :: rest => (n, Entry.toFs e) :: itemsToFs rest
end

/-! Association-list lemmas. -/

@[simp] theorem Dir.items_mk (l : List (OsString × Entry)) : (Dir.mk l).items = l :=
  rfl

theorem containsKey_iff {α : Type} (l : List (OsString × α)) (n : OsString) :
    containsKey l n = true ↔ n ∈ l.map Prod.fst := by
  induction l with
  | nil => simp [containsKey]
  | cons p rest ih =>
    obtain ⟨k, v⟩ := p
    by_cases h : k = n
    · subst h
      simp [containsKey]
    · simp [containsKey, h, ih, Ne.symm h]

theorem containsKey_false_iff {α : Type} (l : List (OsString × α)) (n : OsString) :
    containsKey l n = false ↔ n ∉ l.map Prod.fst := by
  rw [← containsKey_iff]
  cases containsKey l n <;> simp

theorem containsKey_append {α : Type} (l1 l2 : List (OsString × α)) (n : OsString) :
    containsKey (l1 ++ l2) n = (containsKey l1 n || containsKey l2 n) := by
  induction l1 with
  | nil => simp [containsKey]
  | cons p rest ih =>
    obtain ⟨k, v⟩ := p
    by_cases h : k = n <;> simp [containsKey, h, ih]

theorem insertA_of_not_contains {α : Type} (l : List (OsString × α)) (n : OsString) (v : α)
    (h : containsKey l n = false) : insertA l n v = l ++ [(n, v)] := by
  induction l with
  | nil => simp [insertA]
  | cons p rest ih =>
    obtain ⟨k, x⟩ := p
    by_cases hk : k = n
    · simp [containsKey, hk] at h
    · simp [containsKey, hk] at h
      simp [insertA, hk, ih h]

theorem lookupA_insertA_self {α : Type} (l : List (OsString × α)) (n : OsString) (v : α) :
    lookupA (insertA l n v) n = some v := by
  induction l with
  | nil => simp [insertA, lookupA]
  | cons p rest ih =>
    obtain ⟨k, x⟩ := p
    by_cases h : k = n
    · simp [insertA, h, lookupA]
    · simp [insertA, h, lookupA, ih]

theorem noDupKeys_iff {α : Type} (l : List (OsString × α)) :
    noDupKeys l = true ↔ (l.map Prod.fst).Nodup := by
  induction l with
  | nil => simp [noDupKeys]
  | cons p rest ih =>
    obtain ⟨k, v⟩ := p
    rw [List.map_cons, List.nodup_cons, ← ih, ← containsKey_false_iff]
    simp only [noDupKeys]
    cases containsKey rest k <;> cases noDupKeys rest <;> simp

theorem lookupA_none_iff {α : Type} (l : List (OsString × α)) (n : OsString) :
    lookupA l n = none ↔ containsKey l n = false := by
  induction l with
  | nil => simp [lookupA, containsKey]
  | cons p rest ih =>
    obtain ⟨k, v⟩ := p
    by_cases h : k = n <;> simp [lookupA, containsKey, h, ih]

theorem mem_of_lookupA {α : Type} (l : List (OsString × α)) (n : OsString) (v : α)
    (h : lookupA l n = some v) : (n, v) ∈ l := by
  induction l with
  | nil => simp [lookupA] at h
  | cons p rest ih =>
    obtain ⟨k, x⟩ := p
    by_cases hk : k = n
    · subst hk
      simp [lookupA] at h
      simp [h]
    · simp [lookupA, hk] at h
      exact List.mem_cons_of_mem _ (ih h)

theorem lookupA_of_mem_nodup {α : Type} (l : List (OsString × α)) (n : OsString) (v : α)
    (hmem : (n, v) ∈ l) (hnd : noDupKeys l = true) : lookupA l n = some v := by
  induction l with
  | nil => simp at hmem
  | cons p rest ih =>
    obtain ⟨k, x⟩ := p
    simp only [noDupKeys, Bool.and_eq_true, Bool.not_eq_true'] at hnd
    rcases List.mem_cons.mp hmem with heq | hmem2
    · obtain ⟨h1, h2⟩ := Prod.mk.injEq .. ▸ heq.symm
      simp [lookupA, h1, h2]
    · by_cases hk : k = n
      · subst hk
        have : containsKey rest k = true :=
          (containsKey_iff rest k).mpr (List.mem_map.mpr ⟨(k, v), hmem2, rfl⟩)
        rw [hnd.1] at this
        cases this
      · simp [lookupA, hk, ih hmem2 hnd.2]

theorem containsKey_of_perm {α : Type} {l1 l2 : List (OsString × α)} (h : l1.Perm l2)
    (n : OsString) : containsKey l1 n = containsKey l2 n := by
  rw [Bool.eq_iff_iff, containsKey_iff, containsKey_iff]
  exact (h.map Prod.fst).mem_iff

theorem noDupKeys_of_perm {α : Type} {l1 l2 : List (OsString × α)} (h : l1.Perm l2) :
    noDupKeys l1 = noDupKeys l2 := by
  rw [Bool.eq_iff_iff, noDupKeys_iff, noDupKeys_iff]
  exact (h.map Prod.fst).nodup_iff

theorem lookupA_of_perm {α : Type} {l1 l2 : List (OsString × α)} (h : l1.Perm l2)
    (hnd : noDupKeys l1 = true) (n : OsString) : lookupA l1 n = lookupA l2 n := by
  cases hl : lookupA l1 n with
  | none =>
    rw [lookupA_none_iff] at hl
    rw [containsKey_of_perm h] at hl
    rw [(lookupA_none_iff l2 n).mpr hl]
  | some v =>
    have hmem : (n, v) ∈ l2 := h.mem_iff.mp (mem_of_lookupA l1 n v hl)
    have hnd2 : noDupKeys l2 = true := (noDupKeys_of_perm h) ▸ hnd
    rw [lookupA_of_mem_nodup l2 n v hmem hnd2]

/-! Claim theorems: the straightforward operation contracts. -/

/-- Claim C2: for every Dir and every name already present in its mapping,
add_file and add_dir both return an AlreadyExists error and leave the
mapping exactly as it was before the call. -/
theorem duplicate_rejection_preserves_dir (d : Dir) (name : OsString)
    (f : File) (sub : Dir) (h : containsKey d.items name = true) :
    d.add_file name f = (.error .alreadyExists, d) ∧
    d.add_dir name sub = (.error .alreadyExists, d) := by
  constructor <;> simp [Dir.add_file, Dir.add_dir, h]

/-- Witness for C2 at a concrete directory that already binds name 0. -/
theorem duplicate_rejection_preserves_dir_witness :
    containsKey (Dir.mk [(0, Entry.file (File.mk [1]))]).items 0 = true ∧
    (Dir.mk [(0, Entry.file (File.mk [1]))]).add_file 0 (File.mk [2]) =
      (.error .alreadyExists, Dir.mk [(0, Entry.file (File.mk [1]))]) ∧
    (Dir.mk [(0, Entry.file (File.mk [1]))]).add_dir 0 Dir.new =
      (.error .alreadyExists, Dir.mk [(0, Entry.file (File.mk [1]))]) :=
  ⟨rfl,
   (duplicate_rejection_preserves_dir (Dir.mk [(0, Entry.file (File.mk [1]))]) 0
      (File.mk [2]) Dir.new rfl).1,
   (duplicate_rejection_preserves_dir (Dir.mk [(0, Entry.file (File.mk [1]))]) 0
      (File.mk [2]) Dir.new rfl).2⟩

/-- Claim C5: dumping a Dir at a path where any filesystem object already
exists fails with AlreadyExists and leaves the pre-existing object at the
path unmodified. -/
theorem dump_onto_existing_fails (d : Dir) (obj : FsNode) :
    d.dump (some obj) = (.error .alreadyExists, some obj) := by
  cases d
  rfl

/-- Claim C6: dumping a File at any path creates a file holding exactly
the File's bytes, truncating and overwriting whatever was there;
it never fails on pre-existence (unlike Dir::dump). -/
theorem file_dump_truncates (f : File) (existing : Option FsNode) :
    f.dump existing = (.ok (), some (.file f.bytes)) :=
  rfl

/-- Claim C10: adding at a name not present in the Dir succeeds, and the
mapping afterwards is the old mapping extended with exactly the one new
binding; every previously present entry is unchanged. -/
theorem add_extends_mapping (d : Dir) (name : OsString) (f : File) (sub : Dir)
    (h : containsKey d.items name = false) :
    d.add_file name f = (.ok (), Dir.mk (d.items ++ [(name, .file f)])) ∧
    d.add_dir name sub = (.ok (), Dir.mk (d.items ++ [(name, .dir sub)])) := by
  constructor <;> simp [Dir.add_file, Dir.add_dir, h, insertA_of_not_contains _ _ _ h]

/-- Witness for C10 at a concrete directory that does not bind name 1. -/
theorem add_extends_mapping_witness :
    containsKey (Dir.mk [(0, Entry.file (File.mk [1]))]).items 1 = false ∧
    (Dir.mk [(0, Entry.file (File.mk [1]))]).add_file 1 (File.mk [2]) =
      (.ok (), Dir.mk [(0, Entry.file (File.mk [1])), (1, Entry.file (File.mk [2]))]) :=
  ⟨rfl,
   (add_extends_mapping (Dir.mk [(0, Entry.file (File.mk [1]))]) 1
      (File.mk [2]) Dir.new rfl).1⟩

/-! Load pipeline lemmas. -/

theorem loadInto_ok_of_supported (children : List (OsString × FsNode)) :
    supportedChildren children = true → ∀ (acc : Dir), ∃ d, Dir.loadInto acc children = .ok d :=
  match children with
  | [] => fun _ acc => ⟨acc, rfl⟩
  | (name, .file b) :: rest => fun h acc => by
    simp only [supportedChildren, FsNode.supported, Bool.true_and] at h
    obtain ⟨d, hd⟩ :=
      loadInto_ok_of_supported rest h (Dir.mk (insertA acc.items name (.file (File.new b))))
    exact ⟨d, by simp [Dir.loadInto, File.load, hd]⟩
  | (name, .dir sub) :: rest => fun h acc => by
    simp only [supportedChildren, FsNode.supported, Bool.and_eq_true] at h
    obtain ⟨d1, hd1⟩ := loadInto_ok_of_supported sub h.1 Dir.new
    obtain ⟨d, hd⟩ :=
      loadInto_ok_of_supported rest h.2 (Dir.mk (insertA acc.items name (.dir d1)))
    exact ⟨d, by simp [Dir.loadInto, Dir.load, hd1, hd]⟩
  | (name, .other) :: rest => fun h acc => by
    simp [supportedChildren, FsNode.supported] at h
termination_by sizeOf children

theorem loadInto_error_of_unsupported (children : List (OsString × FsNode)) :
    supportedChildren children = false → ∀ (acc : Dir), Dir.loadInto acc children = .error .other :=
  match children with
  | [] => fun h => by simp [supportedChildren] at h
  | (name, .file b) :: rest => fun h acc => by
    simp only [supportedChildren, FsNode.supported, Bool.true_and] at h
    simp only [Dir.loadInto, File.load]
    exact loadInto_error_of_unsupported rest h _
  | (name, .dir sub) :: rest => fun h acc => by
    simp only [supportedChildren, FsNode.supported] at h
    by_cases hsub : supportedChildren sub = true
    · rw [hsub] at h
      simp only [Bool.true_and] at h
      obtain ⟨d1, hd1⟩ := loadInto_ok_of_supported sub hsub Dir.new
      simp only [Dir.loadInto, Dir.load, hd1]
      exact loadInto_error_of_unsupported rest h _
    · have hsub2 : supportedChildren sub = false := by
        cases hq : supportedChildren sub
        · rfl
        · exact absurd hq hsub
      have hload : Dir.load (.dir sub) = .error .other := by
        simp only [Dir.load]
        exact loadInto_error_of_unsupported sub hsub2 Dir.new
      simp [Dir.loadInto, hload]
  | (name, .other) :: rest => fun _ acc => by simp [Dir.loadInto]
termination_by sizeOf children

/-- Claim C4: loading a directory whose tree contains a child that is
neither a regular file nor a subdirectory (at the directory itself or
inside any subdirectory it recurses into) fails with the generic
unsupported-entry error (ErrorKind::Other); no partial Dir is returned. -/
theorem load_unsupported_entry_fails (children : List (OsString × FsNode))
    (h : FsNode.supported (.dir children) = false) :
    Dir.load (.dir children) = .error .other := by
  simp only [FsNode.supported] at h
  simp only [Dir.load]
  exact loadInto_error_of_unsupported children h Dir.new

/-- Witness for C4: a directory whose subdirectory contains a symlink-like
entry; the parent load fails transitively. -/
theorem load_unsupported_entry_fails_witness :
    FsNode.supported (.dir [(0, .dir [(1, FsNode.other)])]) = false ∧
    Dir.load (.dir [(0, .dir [(1, FsNode.other)])]) = .error .other :=
  ⟨rfl, load_unsupported_entry_fails [(0, .dir [(1, FsNode.other)])] rfl⟩

theorem loadInto_append (c1 c2 : List (OsString × FsNode)) : ∀ (acc : Dir),
    Dir.loadInto acc (c1 ++ c2) =
      (match Dir.loadInto acc c1 with
       | .ok d => Dir.loadInto d c2
       | .error e => .error e) := by
  induction c1 with
  | nil => intro acc; simp [Dir.loadInto]
  | cons p rest ih =>
    intro acc
    obtain ⟨name, child⟩ := p
    match child with
    | .file b =>
      simp only [List.cons_append, Dir.loadInto, File.load]
      exact ih _
    | .dir sub =>
      simp only [List.cons_append, Dir.loadInto]
      cases h : Dir.load (.dir sub) with
      | ok d1 => exact ih _
      | error e => rfl
    | .other =>
      simp [Dir.loadInto]

theorem containsKey_cons_of_rest {α : Type} (k : OsString) (v : α)
    (rest : List (OsString × α)) (n : OsString) (h : containsKey rest n = true) :
    containsKey ((k, v) :: rest) n = true := by
  by_cases hk : k = n <;> simp [containsKey, hk, h]

theorem loadInto_length (children : List (OsString × FsNode)) :
    ∀ (acc : Dir) (d : Dir), noDupKeys children = true →
    (∀ n, containsKey children n = true → containsKey acc.items n = false) →
    Dir.loadInto acc children = .ok d →
    d.items.length = acc.items.length + children.length := by
  induction children with
  | nil =>
    intro acc d _ _ hok
    simp only [Dir.loadInto, Except.ok.injEq] at hok
    subst hok
    simp
  | cons p rest ih =>
    intro acc d hnd hfresh hok
    obtain ⟨name, child⟩ := p
    have hnamefresh : containsKey acc.items name = false :=
      hfresh name (by simp [containsKey])
    have hnd2 : noDupKeys rest = true ∧ containsKey rest name = false := by
      simp only [noDupKeys, Bool.and_eq_true, Bool.not_eq_true'] at hnd
      exact ⟨hnd.2, hnd.1⟩
    have key : ∀ (e : Entry), Dir.loadInto (Dir.mk (insertA acc.items name e)) rest = .ok d →
        d.items.length = acc.items.length + (rest.length + 1) := by
      intro e hok2
      rw [insertA_of_not_contains _ _ _ hnamefresh] at hok2
      have hfresh2 : ∀ n, containsKey rest n = true →
          containsKey (Dir.mk (acc.items ++ [(name, e)])).items n = false := by
        intro n hn
        have hne : ¬(name = n) := by
          intro hcontra
          rw [hcontra] at hnd2
          rw [hnd2.2] at hn
          cases hn
        simp only [Dir.items_mk]
        rw [containsKey_append]
        rw [hfresh n (containsKey_cons_of_rest name child rest n hn)]
        simp [containsKey, hne]
      have := ih (Dir.mk (acc.items ++ [(name, e)])) d hnd2.1 hfresh2 hok2
      simp only [Dir.items_mk] at this ⊢
      rw [this]
      simp only [List.length_append, List.length_cons, List.length_nil]
      omega
    match child with
    | .other => simp [Dir.loadInto] at hok
    | .file b =>
      simp only [Dir.loadInto, File.load] at hok
      simpa using key (.file (File.new b)) hok
    | .dir sub =>
      simp only [Dir.loadInto] at hok
      cases hload : Dir.load (.dir sub) with
      | error e =>
        rw [hload] at hok
        cases hok
      | ok d1 =>
        rw [hload] at hok
        simpa using key (.dir d1) hok

/-- Claim C7: loading a directory whose enumeration yields exactly N
children with distinct names, when it succeeds, produces a Dir whose
entries sequence has exactly N elements. -/
theorem load_count_preservation (children : List (OsString × FsNode)) (d : Dir)
    (hnd : noDupKeys children = true) (hok : Dir.load (.dir children) = .ok d) :
    d.entries.length = children.length := by
  simp only [Dir.load] at hok
  have := loadInto_length children Dir.new d hnd (fun n _ => rfl) hok
  simpa [Dir.entries, Dir.new, Dir.items_mk] using this

/-- Witness for C7 at a directory with two children. -/
theorem load_count_preservation_witness :
    noDupKeys [(0, FsNode.file [1]), (1, FsNode.dir [])] = true ∧
    Dir.load (.dir [(0, FsNode.file [1]), (1, FsNode.dir [])]) =
      .ok (Dir.mk [(0, .file (File.mk [1])), (1, .dir (Dir.mk []))]) ∧
    (Dir.mk [(0, .file (File.mk [1])), (1, .dir (Dir.mk []))]).entries.length =
      [(0, FsNode.file [1]), (1, FsNode.dir [])].length :=
  ⟨rfl, rfl,
   load_count_preservation [(0, FsNode.file [1]), (1, FsNode.dir [])]
     (Dir.mk [(0, .file (File.mk [1])), (1, .dir (Dir.mk []))]) rfl rfl⟩

/-- Claim C9: Dir::load does not enforce name uniqueness itself: when the
enumeration yields the same name more than once (all entries supported),
the load still returns Ok, and the entry enumerated last for that name
silently replaces any earlier entry stored under it. -/
theorem load_duplicate_names_overwrite (children : List (OsString × FsNode))
    (n : OsString) (bytes : List Nat) (hsup : supportedChildren children = true) :
    ∃ d, Dir.load (.dir (children ++ [(n, FsNode.file bytes)])) = .ok d ∧
      lookupA d.items n = some (.file (File.mk bytes)) := by
  obtain ⟨d1, hd1⟩ := loadInto_ok_of_supported children hsup Dir.new
  refine ⟨Dir.mk (insertA d1.items n (.file (File.new bytes))), ?_, ?_⟩
  · simp only [Dir.load, loadInto_append, hd1]
    simp [Dir.loadInto, File.load]
  · simp [Dir.items_mk, lookupA_insertA_self, File.new]

/-- Witness for C9: the name 5 is enumerated twice; load succeeds and the
later bytes replace the earlier ones. -/
theorem load_duplicate_names_overwrite_witness :
    supportedChildren [(5, FsNode.file [1])] = true ∧
    (∃ d, Dir.load (.dir ([(5, FsNode.file [1])] ++ [(5, FsNode.file [2])])) = .ok d ∧
      lookupA d.items 5 = some (.file (File.mk [2]))) :=
  ⟨rfl, load_duplicate_names_overwrite [(5, FsNode.file [1])] 5 [2] rfl⟩

/-! Name-uniqueness invariant lemmas. -/

theorem containsKey_insertA_of_ne {α : Type} (l : List (OsString × α)) (n m : OsString)
    (v : α) (hnm : n ≠ m) : containsKey (insertA l n v) m = containsKey l m := by
  induction l with
  | nil => simp [insertA, containsKey, hnm]
  | cons p rest ih =>
    obtain ⟨k, x⟩ := p
    by_cases hk : k = n
    · subst hk
      simp [insertA, containsKey, hnm]
    · simp [insertA, hk, containsKey, ih]

theorem noDupKeys_insertA {α : Type} (l : List (OsString × α)) (n : OsString) (v : α)
    (h : noDupKeys l = true) : noDupKeys (insertA l n v) = true := by
  induction l with
  | nil => simp [insertA, noDupKeys, containsKey]
  | cons p rest ih =>
    obtain ⟨k, x⟩ := p
    simp only [noDupKeys, Bool.and_eq_true, Bool.not_eq_true'] at h
    by_cases hk : k = n
    · subst hk
      simp only [insertA, if_pos rfl, noDupKeys, Bool.and_eq_true, Bool.not_eq_true']
      exact ⟨h.1, h.2⟩
    · simp only [insertA, if_neg hk, noDupKeys, Bool.and_eq_true, Bool.not_eq_true']
      refine ⟨?_, ih h.2⟩
      rw [containsKey_insertA_of_ne rest n k v (fun hc => hk hc.symm)]
      exact h.1

theorem itemsWf_insertA (l : List (OsString × Entry)) (n : OsString) (e : Entry)
    (hl : itemsWf l = true) (he : Entry.wfB e = true) : itemsWf (insertA l n e) = true := by
  induction l with
  | nil => simp [insertA, itemsWf, he]
  | cons p rest ih =>
    obtain ⟨k, x⟩ := p
    simp only [itemsWf, Bool.and_eq_true] at hl
    by_cases hk : k = n
    · simp only [insertA, if_pos hk, itemsWf, Bool.and_eq_true]
      exact ⟨he, hl.2⟩
    · simp only [insertA, if_neg hk, itemsWf, Bool.and_eq_true]
      exact ⟨hl.1, ih hl.2⟩

theorem wfB_insert (items : List (OsString × Entry)) (n : OsString) (e : Entry)
    (h : Dir.wfB (.mk items) = true) (he : Entry.wfB e = true) :
    Dir.wfB (.mk (insertA items n e)) = true := by
  simp only [Dir.wfB, Bool.and_eq_true] at h ⊢
  exact ⟨noDupKeys_insertA items n e h.1, itemsWf_insertA items n e h.2 he⟩

theorem wfB_new : Dir.wfB Dir.new = true := by
  simp [Dir.new, Dir.wfB, noDupKeys, itemsWf]

theorem loadInto_wf (children : List (OsString × FsNode)) :
    ∀ (acc d : Dir), Dir.wfB acc = true → Dir.loadInto acc children = .ok d →
    Dir.wfB d = true :=
  match children with
  | [] => fun acc d hacc hok => by
    simp only [Dir.loadInto, Except.ok.injEq] at hok
    exact hok ▸ hacc
  | (name, .file b) :: rest => fun acc d hacc hok => by
    simp only [Dir.loadInto, File.load] at hok
    refine loadInto_wf rest _ d ?_ hok
    cases acc with
    | mk l => exact wfB_insert l name (.file (File.new b)) hacc rfl
  | (name, .dir sub) :: rest => fun acc d hacc hok => by
    simp only [Dir.loadInto] at hok
    cases hload : Dir.load (.dir sub) with
    | error e =>
      rw [hload] at hok
      cases hok
    | ok d1 =>
      rw [hload] at hok
      have hd1 : Dir.wfB d1 = true := by
        simp only [Dir.load] at hload
        exact loadInto_wf sub Dir.new d1 wfB_new hload
      refine loadInto_wf rest _ d ?_ hok
      cases acc with
      | mk l => exact wfB_insert l name (.dir d1) hacc hd1
  | (name, .other) :: rest => fun acc d hacc hok => by
    simp [Dir.loadInto] at hok
termination_by sizeOf children

theorem wf_of_add_file (d : Dir) (n : OsString) (f : File) (d2 : Dir)
    (hwf : Dir.wfB d = true) (h : d.add_file n f = (.ok (), d2)) : Dir.wfB d2 = true := by
  cases d with
  | mk l =>
    by_cases hc : containsKey (Dir.mk l).items n
    · simp only [Dir.items_mk] at hc
      simp [Dir.add_file, hc] at h
    · simp only [Dir.add_file, hc, if_neg, Bool.false_eq_true, if_false,
        Prod.mk.injEq, true_and] at h
      exact h ▸ wfB_insert l n (.file f) hwf rfl

theorem wf_of_add_dir (d : Dir) (n : OsString) (sub : Dir) (d2 : Dir)
    (hwf : Dir.wfB d = true) (hsub : Dir.wfB sub = true)
    (h : d.add_dir n sub = (.ok (), d2)) : Dir.wfB d2 = true := by
  cases d with
  | mk l =>
    by_cases hc : containsKey (Dir.mk l).items n
    · simp only [Dir.items_mk] at hc
      simp [Dir.add_dir, hc] at h
    · simp only [Dir.add_dir, hc, if_neg, Bool.false_eq_true, if_false,
        Prod.mk.injEq, true_and] at h
      refine h ▸ wfB_insert l n (.dir sub) hwf ?_
      simpa [Entry.wfB] using hsub

theorem wf_of_reachable (d : Dir) (h : Reachable d) : Dir.wfB d = true := by
  induction h with
  | new => exact wfB_new
  | load fs d hload =>
    cases fs with
    | dir children =>
      simp only [Dir.load] at hload
      exact loadInto_wf children Dir.new d wfB_new hload
    | file b => simp [Dir.load] at hload
    | other => simp [Dir.load] at hload
  | add_file d n f d2 _ hadd ih => exact wf_of_add_file d n f d2 ih hadd
  | add_dir d n sub d2 _ _ hadd ih1 ih2 => exact wf_of_add_dir d n sub d2 ih1 ih2 hadd

/-- Claim C3: name uniqueness at every level is an invariant of every Dir
reachable through new, load, add_file and add_dir. -/
theorem reachable_name_uniqueness (d : Dir) (h : Reachable d) : Dir.wfB d = true :=
  wf_of_reachable d h

/-- Witness for C3 at a Dir reached by one add_file from new. -/
theorem reachable_name_uniqueness_witness :
    Dir.wfB (Dir.mk [(0, .file (File.mk [1]))]) = true :=
  reachable_name_uniqueness (Dir.mk [(0, .file (File.mk [1]))])
    (Reachable.add_file Dir.new 0 (File.mk [1]) (Dir.mk [(0, .file (File.mk [1]))])
      Reachable.new rfl)

/-! Round-trip lemmas: dumping a well-formed tree at a fresh path writes
exactly its toFs image, and loading that image returns the tree. -/

mutual
theorem dump_toFs (e : Entry) :
    Entry.wfB e = true → Entry.dump e none = (.ok (), some (Entry.toFs e)) :=
  match e with
  | .file _ => fun _ => rfl
  | .dir (.mk items) => fun hwf => by
    have h2 : Dir.wfB (.mk items) = true := by simpa [Entry.wfB] using hwf
    simp only [Dir.wfB, Bool.and_eq_true] at h2
    have hd := dumpItems_toFs items [] h2.1 h2.2 (fun n _ => rfl)
    simp only [Entry.dump, Dir.dump, Entry.toFs]
    rw [hd]
    simp

theorem dumpItems_toFs (items : List (OsString × Entry)) :
    ∀ (made : List (OsString × FsNode)), noDupKeys items = true → itemsWf items = true →
    (∀ n, containsKey items n = true → containsKey made n = false) →
    Dir.dumpItems made items = (.ok (), made ++ itemsToFs items) :=
  match items with
  | [] => fun made _ _ _ => by simp [Dir.dumpItems, itemsToFs]
  | (name, entry) :: rest => fun made hnd hwf hfresh => by
    have hmadefresh : containsKey made name = false := hfresh name (by simp [containsKey])
    have hlook : lookupA made name = none := (lookupA_none_iff made name).mpr hmadefresh
    simp only [noDupKeys, Bool.and_eq_true, Bool.not_eq_true'] at hnd
    simp only [itemsWf, Bool.and_eq_true] at hwf
    have hdump := dump_toFs entry hwf.1
    simp only [Dir.dumpItems, hlook, hdump, updateA]
    rw [insertA_of_not_contains made name _ hmadefresh]
    have hfresh2 : ∀ n, containsKey rest n = true →
        containsKey (made ++ [(name, Entry.toFs entry)]) n = false := by
      intro n hn
      have hne : ¬(name = n) := by
        intro hcontra
        rw [hcontra] at hnd
        rw [hnd.1] at hn
        cases hn
      rw [containsKey_append, hfresh n (containsKey_cons_of_rest name entry rest n hn)]
      simp [containsKey, hne]
    rw [dumpItems_toFs rest (made ++ [(name, Entry.toFs entry)]) hnd.2 hwf.2 hfresh2]
    simp [itemsToFs]
end

mutual
theorem load_toFs_dir (d : Dir) :
    Dir.wfB d = true → Dir.load (Entry.toFs (.dir d)) = .ok d :=
  match d with
  | .mk items => fun hwf => by
    simp only [Dir.wfB, Bool.and_eq_true] at hwf
    simp only [Entry.toFs, Dir.load]
    have := loadInto_toFs items Dir.new hwf.1 hwf.2 (fun n _ => rfl)
    simpa [Dir.new] using this

theorem loadInto_toFs (items : List (OsString × Entry)) :
    ∀ (acc : Dir), noDupKeys items = true → itemsWf items = true →
    (∀ n, containsKey items n = true → containsKey acc.items n = false) →
    Dir.loadInto acc (itemsToFs items) = .ok (Dir.mk (acc.items ++ items)) :=
  match items with
  | [] => fun acc _ _ _ => by
    cases acc with
    | mk l => simp [itemsToFs, Dir.loadInto]
  | (name, .file (File.mk bs)) :: rest => fun acc hnd hwf hfresh => by
    have haccfresh : containsKey acc.items name = false := hfresh name (by simp [containsKey])
    simp only [noDupKeys, Bool.and_eq_true, Bool.not_eq_true'] at hnd
    simp only [itemsWf, Bool.and_eq_true] at hwf
    have hfresh2 : ∀ n, containsKey rest n = true →
        containsKey (Dir.mk (acc.items ++ [(name, Entry.file (File.mk bs))])).items n = false := by
      intro n hn
      have hne : ¬(name = n) := by
        intro hcontra
        rw [hcontra] at hnd
        rw [hnd.1] at hn
        cases hn
      simp only [Dir.items_mk]
      rw [containsKey_append,
        hfresh n (containsKey_cons_of_rest name (Entry.file (File.mk bs)) rest n hn)]
      simp [containsKey, hne]
    simp only [itemsToFs, Entry.toFs, Dir.loadInto, File.load, File.new]
    rw [insertA_of_not_contains _ _ _ haccfresh]
    rw [loadInto_toFs rest (Dir.mk (acc.items ++ [(name, Entry.file (File.mk bs))]))
      hnd.2 hwf.2 hfresh2]
    simp

  | (name, .dir (.mk subitems)) :: rest => fun acc hnd hwf hfresh => by
    have haccfresh : containsKey acc.items name = false := hfresh name (by simp [containsKey])
    simp only [noDupKeys, Bool.and_eq_true, Bool.not_eq_true'] at hnd
    simp only [itemsWf, Bool.and_eq_true] at hwf
    have hsubwf : Dir.wfB (.mk subitems) = true := by
      simpa [Entry.wfB] using hwf.1
    have hsub := load_toFs_dir (.mk subitems) hsubwf
    simp only [Entry.toFs] at hsub
    have hfresh2 : ∀ n, containsKey rest n = true →
        containsKey (Dir.mk (acc.items ++ [(name, Entry.dir (Dir.mk subitems))])).items n = false := by
      intro n hn
      have hne : ¬(name = n) := by
        intro hcontra
        rw [hcontra] at hnd
        rw [hnd.1] at hn
        cases hn
      simp only [Dir.items_mk]
      rw [containsKey_append,
        hfresh n (containsKey_cons_of_rest name (Entry.dir (Dir.mk subitems)) rest n hn)]
      simp [containsKey, hne]
    simp only [itemsToFs, Entry.toFs, Dir.loadInto, hsub]
    rw [insertA_of_not_contains _ _ _ haccfresh]
    rw [loadInto_toFs rest (Dir.mk (acc.items ++ [(name, Entry.dir (Dir.mk subitems))]))
      hnd.2 hwf.2 hfresh2]
    simp
end

theorem wf_of_built (d : Dir) (h : Built d) : Dir.wfB d = true := by
  induction h with
  | new => exact wfB_new
  | add_file d n f d2 _ hadd ih => exact wf_of_add_file d n f d2 ih hadd
  | add_dir d n sub d2 _ _ hadd ih1 ih2 => exact wf_of_add_dir d n sub d2 ih1 ih2 hadd

/-- Claim C1: for every tree T built purely via add_file / add_dir, and
every target where Dir::dump succeeds (writing the tree fs), Dir::load of
fs returns exactly T: the same names at every level, the same nesting,
and byte-identical file contents. -/
theorem round_trip_identity (T : Dir) (hB : Built T) (fs : FsNode)
    (hdump : T.dump none = (.ok (), some fs)) : Dir.load fs = .ok T := by
  have hwf : Dir.wfB T = true := wf_of_built T hB
  have hdump2 : T.dump none = (.ok (), some (Entry.toFs (.dir T))) := by
    have := dump_toFs (.dir T) (by simpa [Entry.wfB] using hwf)
    simpa [Entry.dump] using this
  rw [hdump2] at hdump
  simp only [Prod.mk.injEq, Option.some.injEq, true_and] at hdump
  rw [← hdump]
  exact load_toFs_dir T hwf

/-- Witness for C1 at a tree with one file, built by one add_file. -/
theorem round_trip_identity_witness :
    Built (Dir.mk [(0, .file (File.mk [1, 2]))]) ∧
    (Dir.mk [(0, .file (File.mk [1, 2]))]).dump none =
      (.ok (), some (.dir [(0, FsNode.file [1, 2])])) ∧
    Dir.load (.dir [(0, FsNode.file [1, 2])]) = .ok (Dir.mk [(0, .file (File.mk [1, 2]))]) :=
  ⟨Built.add_file Dir.new 0 (File.mk [1, 2]) (Dir.mk [(0, .file (File.mk [1, 2]))])
     Built.new rfl,
   rfl,
   round_trip_identity (Dir.mk [(0, .file (File.mk [1, 2]))])
     (Built.add_file Dir.new 0 (File.mk [1, 2]) (Dir.mk [(0, .file (File.mk [1, 2]))])
       Built.new rfl)
     (.dir [(0, FsNode.file [1, 2])]) rfl⟩

/-! Structural-equality (derived PartialEq) lemmas and insertion order. -/

theorem entryLookupEqv_eq_lookup (e : Entry) (l : List (OsString × Entry)) (n : OsString) :
    entryLookupEqv e l n =
      (match lookupA l n with
       | some e2 => Entry.eqv e e2
       | none => false) := by
  induction l with
  | nil => simp [entryLookupEqv, lookupA]
  | cons p rest ih =>
    obtain ⟨k, e2⟩ := p
    by_cases hk : k = n <;> simp [entryLookupEqv, lookupA, hk, ih]

theorem itemsIncl_of_pointwise (l1 l2 : List (OsString × Entry))
    (h : ∀ p ∈ l1, entryLookupEqv p.2 l2 p.1 = true) : itemsIncl l1 l2 = true := by
  induction l1 with
  | nil => simp [itemsIncl]
  | cons p rest ih =>
    obtain ⟨n, e⟩ := p
    simp only [itemsIncl, Bool.and_eq_true]
    exact ⟨h (n, e) (List.mem_cons_self _ _), ih (fun q hq => h q (List.mem_cons_of_mem _ hq))⟩

theorem itemsWf_of_mem (l : List (OsString × Entry)) (n : OsString) (e : Entry)
    (hmem : (n, e) ∈ l) (h : itemsWf l = true) : Entry.wfB e = true := by
  induction l with
  | nil => simp at hmem
  | cons p rest ih =>
    obtain ⟨k, e2⟩ := p
    simp only [itemsWf, Bool.and_eq_true] at h
    rcases List.mem_cons.mp hmem with heq | hmem2
    · cases heq
      exact h.1
    · exact ih hmem2 h.2

theorem eqv_refl (e : Entry) (hwf : Entry.wfB e = true) : Entry.eqv e e = true :=
  match e with
  | .file f => by simp [Entry.eqv]
  | .dir (.mk l) => by
    have hwf2 : Dir.wfB (.mk l) = true := by simpa [Entry.wfB] using hwf
    simp only [Dir.wfB, Bool.and_eq_true] at hwf2
    simp only [Entry.eqv, Dir.eqv, Bool.and_eq_true]
    refine ⟨by simp, ?_⟩
    refine itemsIncl_of_pointwise l l ?_
    intro p hmem
    rw [entryLookupEqv_eq_lookup]
    rw [lookupA_of_mem_nodup l p.1 p.2 hmem hwf2.1]
    exact eqv_refl p.2 (itemsWf_of_mem l p.1 p.2 hmem hwf2.2)
termination_by sizeOf e
decreasing_by
  have h1 := List.sizeOf_lt_of_mem hmem
  obtain ⟨n, e2⟩ := p
  simp only [Prod.mk.sizeOf_spec] at h1
  simp only [Entry.dir.sizeOf_spec, Dir.mk.sizeOf_spec]
  omega

theorem eqv_of_perm (l1 l2 : List (OsString × Entry)) (hperm : l1.Perm l2)
    (hnd : noDupKeys l1 = true) (hwf : itemsWf l1 = true) :
    Dir.eqv (.mk l1) (.mk l2) = true := by
  simp only [Dir.eqv, Bool.and_eq_true]
  refine ⟨by simp [hperm.length_eq], ?_⟩
  refine itemsIncl_of_pointwise l1 l2 ?_
  intro p hmem
  rw [entryLookupEqv_eq_lookup]
  have hl : lookupA l2 p.1 = some p.2 := by
    rw [← lookupA_of_perm hperm hnd p.1]
    exact lookupA_of_mem_nodup l1 p.1 p.2 hmem hnd
  rw [hl]
  exact eqv_refl p.2 (itemsWf_of_mem l1 p.1 p.2 hmem hwf)

theorem itemsWf_append (l1 l2 : List (OsString × Entry)) :
    itemsWf (l1 ++ l2) = (itemsWf l1 && itemsWf l2) := by
  induction l1 with
  | nil => simp [itemsWf]
  | cons p rest ih =>
    obtain ⟨k, e⟩ := p
    simp [itemsWf, ih, Bool.and_assoc]

theorem applyOps_eq (ops : List AddOp) : ∀ (d : Dir),
    (ops.map AddOp.name).Nodup →
    (∀ op ∈ ops, containsKey d.items (AddOp.name op) = false) →
    Dir.applyOps d ops =
      .ok (Dir.mk (d.items ++ ops.map (fun op => (AddOp.name op, AddOp.entry op)))) := by
  induction ops with
  | nil =>
    intro d _ _
    cases d
    simp [Dir.applyOps]
  | cons op rest ih =>
    intro d hnd hfresh
    have hopfresh : containsKey d.items (AddOp.name op) = false :=
      hfresh op (List.mem_cons_self _ _)
    simp only [List.map_cons, List.nodup_cons] at hnd
    have hfresh2 : ∀ (e : Entry), ∀ op2 ∈ rest,
        containsKey (Dir.mk (d.items ++ [(AddOp.name op, e)])).items (AddOp.name op2) = false := by
      intro e op2 hop2
      have hne : ¬(AddOp.name op = AddOp.name op2) := by
        intro hcontra
        exact hnd.1 (hcontra ▸ List.mem_map.mpr ⟨op2, hop2, rfl⟩)
      simp only [Dir.items_mk]
      rw [containsKey_append, hfresh op2 (List.mem_cons_of_mem _ hop2)]
      simp [containsKey, hne]
    cases op with
    | addFile n f =>
      simp only [AddOp.name] at hopfresh hfresh2
      simp only [Dir.applyOps, Dir.add_file, hopfresh, Bool.false_eq_true, if_false]
      rw [insertA_of_not_contains _ _ _ hopfresh]
      rw [ih (Dir.mk (d.items ++ [(n, Entry.file f)])) hnd.2 (hfresh2 (.file f))]
      simp [AddOp.name, AddOp.entry]
    | addDir n sub =>
      simp only [AddOp.name] at hopfresh hfresh2
      simp only [Dir.applyOps, Dir.add_dir, hopfresh, Bool.false_eq_true, if_false]
      rw [insertA_of_not_contains _ _ _ hopfresh]
      rw [ih (Dir.mk (d.items ++ [(n, Entry.dir sub)])) hnd.2 (hfresh2 (.dir sub))]
      simp [AddOp.name, AddOp.entry]

theorem applyOps_ok_fresh (ops : List AddOp) : ∀ (d d1 : Dir),
    (ops.map AddOp.name).Nodup → Dir.applyOps d ops = .ok d1 →
    ∀ op ∈ ops, containsKey d.items (AddOp.name op) = false := by
  induction ops with
  | nil =>
    intro d d1 _ _ op hop
    simp at hop
  | cons op0 rest ih =>
    intro d d1 hnd hok op hop
    simp only [List.map_cons, List.nodup_cons] at hnd
    have hne : ∀ op2 ∈ rest, ¬(AddOp.name op0 = AddOp.name op2) := by
      intro op2 hop2 hcontra
      exact hnd.1 (hcontra ▸ List.mem_map.mpr ⟨op2, hop2, rfl⟩)
    cases op0 with
    | addFile n f =>
      by_cases hc : containsKey d.items n = true
      · simp [Dir.applyOps, Dir.add_file, hc] at hok
      · have hc2 : containsKey d.items n = false := by
          cases hq : containsKey d.items n
          · rfl
          · exact absurd hq hc
        simp only [Dir.applyOps, Dir.add_file, hc2, Bool.false_eq_true, if_false] at hok
        rcases List.mem_cons.mp hop with rfl | hop2
        · exact hc2
        · have hof := ih (Dir.mk (insertA d.items n (.file f))) d1 hnd.2 hok op hop2
          simp only [Dir.items_mk] at hof
          rw [containsKey_insertA_of_ne d.items n (AddOp.name op) _
            (hne op hop2)] at hof
          exact hof
    | addDir n sub =>
      by_cases hc : containsKey d.items n = true
      · simp [Dir.applyOps, Dir.add_dir, hc] at hok
      · have hc2 : containsKey d.items n = false := by
          cases hq : containsKey d.items n
          · rfl
          · exact absurd hq hc
        simp only [Dir.applyOps, Dir.add_dir, hc2, Bool.false_eq_true, if_false] at hok
        rcases List.mem_cons.mp hop with rfl | hop2
        · exact hc2
        · have hof := ih (Dir.mk (insertA d.items n (.dir sub))) d1 hnd.2 hok op hop2
          simp only [Dir.items_mk] at hof
          rw [containsKey_insertA_of_ne d.items n (AddOp.name op) _
            (hne op hop2)] at hof
          exact hof

theorem wfB_split (d : Dir) (h : Dir.wfB d = true) :
    noDupKeys d.items = true ∧ itemsWf d.items = true := by
  cases d with
  | mk l =>
    simp only [Dir.wfB, Bool.and_eq_true] at h
    simpa using h

theorem itemsWf_map_ops (ops : List AddOp)
    (h : ∀ op ∈ ops, Entry.wfB (AddOp.entry op) = true) :
    itemsWf (ops.map (fun op => (AddOp.name op, AddOp.entry op))) = true := by
  induction ops with
  | nil => simp [itemsWf]
  | cons op rest ih =>
    simp only [List.map_cons, itemsWf, Bool.and_eq_true]
    exact ⟨h op (List.mem_cons_self _ _),
           ih (fun op2 hop2 => h op2 (List.mem_cons_of_mem _ hop2))⟩

/-- Claim C8: insertion order is irrelevant: a sequence of successful
add_file / add_dir calls with pairwise distinct names, performed in any
other order on the same starting Dir, also succeeds and produces a Dir
that compares equal (same mapping from names to entries, equal in the
sense of the derived PartialEq). -/
theorem insertion_order_irrelevant (d : Dir) (ops ops2 : List AddOp) (d1 : Dir)
    (hwf : Dir.wfB d = true)
    (hopswf : ∀ op ∈ ops, Entry.wfB (AddOp.entry op) = true)
    (hnd : (ops.map AddOp.name).Nodup)
    (hperm : ops.Perm ops2)
    (h1 : Dir.applyOps d ops = .ok d1) :
    ∃ d2, Dir.applyOps d ops2 = .ok d2 ∧ Dir.eqv d1 d2 = true := by
  have hfresh : ∀ op ∈ ops, containsKey d.items (AddOp.name op) = false :=
    applyOps_ok_fresh ops d d1 hnd h1
  have hnd2 : (ops2.map AddOp.name).Nodup := ((hperm.map AddOp.name).nodup_iff).mp hnd
  have hfresh2 : ∀ op ∈ ops2, containsKey d.items (AddOp.name op) = false :=
    fun op hop => hfresh op (hperm.mem_iff.mpr hop)
  have he1 := applyOps_eq ops d hnd hfresh
  have he2 := applyOps_eq ops2 d hnd2 hfresh2
  rw [he1] at h1
  simp only [Except.ok.injEq] at h1
  refine ⟨_, he2, ?_⟩
  rw [← h1]
  have hsplit := wfB_split d hwf
  have hpairs : (ops.map (fun op => (AddOp.name op, AddOp.entry op))).Perm
      (ops2.map (fun op => (AddOp.name op, AddOp.entry op))) := hperm.map _
  refine eqv_of_perm _ _ (hpairs.append_left d.items) ?_ ?_
  · apply (noDupKeys_iff _).mpr
    rw [List.map_append, List.map_map]
    have hcomp : (Prod.fst ∘ fun op => (AddOp.name op, AddOp.entry op)) = AddOp.name := rfl
    rw [hcomp, List.nodup_append]
    refine ⟨(noDupKeys_iff _).mp hsplit.1, hnd, ?_⟩
    intro a ha1 ha2
    obtain ⟨op, hop, rfl⟩ := List.mem_map.mp ha2
    have hf := hfresh op hop
    rw [containsKey_false_iff] at hf
    exact hf ha1
  · rw [itemsWf_append, Bool.and_eq_true]
    exact ⟨hsplit.2, itemsWf_map_ops ops hopswf⟩

/-- Witness for C8: two adds performed in both orders from an empty Dir
yield Dirs that compare equal. -/
theorem insertion_order_irrelevant_witness :
    Dir.applyOps Dir.new [AddOp.addFile 1 (File.mk [7]), AddOp.addDir 2 Dir.new] =
      .ok (Dir.mk [(1, .file (File.mk [7])), (2, .dir Dir.new)]) ∧
    ∃ d2,
      Dir.applyOps Dir.new [AddOp.addDir 2 Dir.new, AddOp.addFile 1 (File.mk [7])] =
        .ok d2 ∧
      Dir.eqv (Dir.mk [(1, .file (File.mk [7])), (2, .dir Dir.new)]) d2 = true :=
  ⟨rfl,
   insertion_order_irrelevant Dir.new
     [AddOp.addFile 1 (File.mk [7]), AddOp.addDir 2 Dir.new]
     [AddOp.addDir 2 Dir.new, AddOp.addFile 1 (File.mk [7])]
     (Dir.mk [(1, .file (File.mk [7])), (2, .dir Dir.new)])
     wfB_new
     (by intro op hop; fin_cases hop <;> rfl)
     (by decide)
     (List.Perm.swap (AddOp.addDir 2 Dir.new) (AddOp.addFile 1 (File.mk [7])) [])
     rfl⟩
